import Mathlib

/-!
Verification of the `Byte::sparse_vector` container (src/sparse_vector.h):
a contiguous-storage container with per-64-slot occupancy bitmaps, an
ordered free-chunk registry, and a bit-scanning hole-skipping iterator.

The C++ bit convention: slot `p` (0 ≤ p < 64) of chunk `c` is live iff bit
`63 - p` of `bitsets[c].to_ullong()` is set.  Words are modelled as `Nat`
values below `2 ^ 64`; `std::countl_zero` on a 64-bit word is `clz64`.
The element buffer is modelled as a `List (Option V)` where `none` marks an
unconstructed slot.  The free-chunk registry (`std::set<size_t>`) is a
strictly ascending `List Nat`: `insert` is ordered insertion, `erase`
removes the element, and dereferencing `begin()` reads the head.
Operations that hit undefined behaviour in C++ (dereferencing `begin()` of
an empty set, `vector::at` out of range) are modelled with `Option`.
-/

set_option maxHeartbeats 1000000
set_option synthInstance.maxSize 512
set_option maxRecDepth 100000

namespace Byte

/-- `_BITSET_SIZE`: width of one occupancy chunk. -/
def BITSET_SIZE : Nat := 64

/-- The all-ones 64-bit word, value of a full chunk bitmap. -/
def FULL : Nat := 2 ^ 64 - 1

/-- Bit scan from bit `k - 1` down: position of the first set bit from the
top, counted as leading zeros; `64` when no bit below `k` is set. -/
def clzFrom (m : Nat) : Nat → Nat
  | 0 => 64
  | k + 1 => if m.testBit k then 63 - k else clzFrom m k

/-- `std::countl_zero` on a 64-bit word (argument must be `< 2 ^ 64`):
number of leading zero bits, `64` for the zero word. -/
def clz64 (m : Nat) : Nat := clzFrom m 64

/-- `std::set<size_t>::insert`: ordered insertion without duplication into
the strictly ascending element list. -/
def setInsert : List Nat → Nat → List Nat
  | [], x => [x]
  | y :: l, x =>
    if x < y then x :: y :: l
    else if x = y then y :: l
    else y :: setInsert l x

/-- `std::set<size_t>::erase`: remove an element from the element list. -/
def setErase (l : List Nat) (x : Nat) : List Nat := l.filter fun y => y ≠ x

/-- State of a `Byte::sparse_vector<V>`: element buffer (`none` =
unconstructed slot), occupancy words, free-chunk registry (ascending
element list of the `std::set`), live count and slot capacity. -/
structure sparse_vector (V : Type) where
  data : List (Option V)
  bitsets : List Nat
  indices : List Nat
  size : Nat
  capacity : Nat
  deriving DecidableEq

namespace sparse_vector

variable {V : Type}

/-- Unchecked word read `bitsets[c]` (reads past the end give `0`,
matching "no occupancy" for chunks that do not exist). -/
def getWord (bs : List Nat) (c : Nat) : Nat := bs.getD c 0

/-- Occupancy test for slot `i`: bit `63 - i % 64` of word `i / 64`. -/
def testSlot (bs : List Nat) (i : Nat) : Bool :=
  (getWord bs (i / 64)).testBit (63 - i % 64)

/-- `std::vector::resize` on the word vector (new words are zero). -/
def resizeBitsets (bs : List Nat) (n : Nat) : List Nat :=
  bs.take n ++ List.replicate (n - bs.length) 0

/-- `sparse_vector::expand`: reallocate, move the first `_size` slots,
register the chunk indices `[capacity/64, newCap/64)`, resize the word
vector. -/
def expand (s : sparse_vector V) (newCap : Nat) : sparse_vector V :=
  { data := (List.range newCap).map fun i => if i < s.size then s.data.getD i none else none
    bitsets := resizeBitsets s.bitsets (newCap / 64)
    indices := (List.range' (s.capacity / 64) (newCap / 64 - s.capacity / 64)).foldl setInsert s.indices
    size := s.size
    capacity := newCap }

/-- `sparse_vector::_emplace`: set the occupancy bit, drop the chunk from
the registry if it became full, construct the element, bump the count. -/
def emplaceAt (s : sparse_vector V) (i : Nat) (v : V) : sparse_vector V :=
  let c := i / 64
  let w := getWord s.bitsets c ||| 2 ^ (63 - i % 64)
  { data := s.data.set i (some v)
    bitsets := s.bitsets.set c w
    indices := if w = FULL then setErase s.indices c else s.indices
    size := s.size + 1
    capacity := s.capacity }

/-- `sparse_vector::insert(index, value)`: construct directly at a
caller-chosen index via `_emplace`. -/
def insert (s : sparse_vector V) (i : Nat) (v : V) : sparse_vector V :=
  emplaceAt s i v

/-- `sparse_vector::push`: grow when the registry is empty, then take the
lowest registered chunk (`*indices.begin()`), bit-scan `~word` for the
lowest free slot and construct there.  `none` models dereferencing
`begin()` of an empty registry (undefined behaviour, reachable only at
zero capacity). -/
def push (s : sparse_vector V) (v : V) : Option (Nat × sparse_vector V) :=
  let s1 := if s.indices = [] then s.expand (2 * s.capacity) else s
  match s1.indices.head? with
  | none => none
  | some c =>
    let i := clz64 (getWord s1.bitsets c ^^^ FULL) + c * 64
    some (i, s1.emplaceAt i v)

/-- `sparse_vector::free_index`: identical scan to `push`, without the
construction step. -/
def free_index (s : sparse_vector V) : Option (Nat × sparse_vector V) :=
  let s1 := if s.indices = [] then s.expand (2 * s.capacity) else s
  match s1.indices.head? with
  | none => none
  | some c =>
    let i := clz64 (getWord s1.bitsets c ^^^ FULL) + c * 64
    some (i, s1)

/-- `sparse_vector::emplace`: `free_index` followed by `_emplace`. -/
def emplaceNew (s : sparse_vector V) (v : V) : Option (Nat × sparse_vector V) :=
  (free_index s).map fun p => (p.1, emplaceAt p.2 p.1 v)

/-- `sparse_vector::erase`: re-register the chunk if it was full, clear
the occupancy bit, destroy the element, decrement the count. -/
def erase (s : sparse_vector V) (i : Nat) : sparse_vector V :=
  let c := i / 64
  let w := getWord s.bitsets c
  { data := s.data.set i none
    bitsets := s.bitsets.set c (w &&& (FULL ^^^ 2 ^ (63 - i % 64)))
    indices := if w = FULL then setInsert s.indices c else s.indices
    size := s.size - 1
    capacity := s.capacity }

/-- `sparse_vector::clear`: empty the registry and the word vector,
release the buffer, zero the size and the capacity.  (The intervening
destructor loop of the C++ code is compiled out for trivially-destructible
payloads, which is how the plain-data payloads modelled here behave; for
other payloads it would call `begin()` after the word vector was already
cleared and throw.) -/
def clear (_s : sparse_vector V) : sparse_vector V :=
  { data := [], bitsets := [], indices := [], size := 0, capacity := 0 }

/-- `sparse_vector::sparse_vector(initial_capacity)`: round the request up
to a chunk multiple and expand an empty container to it. -/
def create (V : Type) (cap0 : Nat) : sparse_vector V :=
  let cap := if cap0 % 64 ≠ 0 then cap0 + (64 - cap0 % 64) else cap0
  expand { data := [], bitsets := [], indices := [], size := 0, capacity := 0 } cap

/-- `sparse_vector_iterator::operator++`: scan from loop variable `c`
(initially `_index / 64`), masking off the bits at and above the current
position of the first word, and jumping by `countl_zero` of the masked
word. -/
def advanceLoop (bs : List Nat) : Nat → Nat → Nat → Nat
  | 0, _, i => i
  | fuel + 1, c, i =>
    if c < bs.length then
      let w := getWord bs c
      let m := w &&& (2 ^ (63 - i % 64) - 1)
      let cnt := clz64 m
      if cnt ≠ 64 then c * 64 + cnt
      else advanceLoop bs fuel (c + 1) (i + (64 - i % 64))
    else i

/-- `operator++` entered at loop variable `c` and index `i`; the fuel
`bs.length + 1` is enough because the loop variable strictly increases and
the loop exits at `bs.length`. -/
def advanceFrom (bs : List Nat) (c : Nat) (i : Nat) : Nat :=
  advanceLoop bs (bs.length + 1) c i

/-- `sparse_vector_iterator`'s constructor with a non-null word vector:
checked lookup `bitsets.at(i / 64)` (`none` models the `std::out_of_range`
throw), then one advance step if the start slot is not live. -/
def mkIterIdx (bs : List Nat) (i : Nat) : Option Nat :=
  if i / 64 < bs.length then
    if testSlot bs i then some i else some (advanceFrom bs (i / 64) i)
  else none

/-- `begin()`: iterator at index 0 over the container's word vector. -/
def beginIdx (s : sparse_vector V) : Option Nat := mkIterIdx s.bitsets 0

/-- `end()`: the sentinel index `bitsets.size() * 64` (null word vector,
no constructor check). -/
def endIdx (bs : List Nat) : Nat := bs.length * 64

/-- Indices visited by `for (it = begin; it != end; ++it)` starting from
iterator index `i`; fuelled (the fuel `bs.length * 64 + 1` used below is
enough because each advance strictly increases the index). -/
def yieldsFrom (bs : List Nat) : Nat → Nat → List Nat
  | 0, _ => []
  | fuel + 1, i =>
    if i < bs.length * 64 then i :: yieldsFrom bs fuel (advanceFrom bs (i / 64) i)
    else []

/-- The full iteration sequence of slot indices from `begin()` to
`end()` (`[]` when the constructor lookup throws). -/
def iterYields (bs : List Nat) : List Nat :=
  match mkIterIdx bs 0 with
  | none => []
  | some i => yieldsFrom bs (bs.length * 64 + 1) i

/-- `sparse_vector::copy`: fresh buffer of the same capacity, written only
at the indices the iterator visits; words, registry, size and capacity are
copied verbatim. -/
def copy (s : sparse_vector V) : sparse_vector V :=
  { data := (iterYields s.bitsets).foldl (fun d i => d.set i (s.data.getD i none))
      (List.replicate s.capacity none)
    bitsets := s.bitsets
    indices := s.indices
    size := s.size
    capacity := s.capacity }

/-- The capacity scan of `shrink_to_fit`: walk word indices from
`bitsets.size() - 1` down, stopping at index 0 or at the first non-zero
word, subtracting 64 per empty trailing chunk. -/
def shrinkCapAux (bs : List Nat) : Nat → Nat → Nat
  | 0, cap => cap
  | c + 1, cap =>
    if getWord bs (c + 1) ≠ 0 then cap
    else shrinkCapAux bs c (cap - 64)

/-- `sparse_vector::shrink`: relocate the iterator-visited elements into a
smaller buffer, keep the first `newCap / 64` words, and re-insert every
kept chunk index into the freshly cleared registry. -/
def shrink (s : sparse_vector V) (newCap : Nat) : sparse_vector V :=
  { data := (iterYields s.bitsets).foldl (fun d i => d.set i (s.data.getD i none))
      (List.replicate newCap none)
    bitsets := s.bitsets.take (newCap / 64)
    indices := (List.range (newCap / 64)).foldl setInsert []
    size := s.size
    capacity := newCap }

/-- `sparse_vector::shrink_to_fit`: `clear` when empty, otherwise shrink
when trailing chunks are entirely free. -/
def shrink_to_fit (s : sparse_vector V) : sparse_vector V :=
  if s.size = 0 then clear s
  else
    let newCap := shrinkCapAux s.bitsets (s.bitsets.length - 1) s.capacity
    if newCap ≠ s.capacity then shrink s newCap else s

/-- Number of set bits of a 64-bit word. -/
def popc64 (w : Nat) : Nat := ((Finset.range 64).filter fun b => w.testBit b).card

/-- Total number of set occupancy bits. -/
def totalPop (bs : List Nat) : Nat := (bs.map popc64).sum

/-- The canonical free-chunk registry of a word vector: the ascending list
of chunk indices whose bitmap is not all-ones. -/
def reg (bs : List Nat) : List Nat :=
  (List.range bs.length).filter fun c => getWord bs c ≠ FULL

/-- Representation invariant of `sparse_vector` (the §3 invariants of the
specification): chunk-multiple capacity, one word per chunk, 64-bit words,
registry = ascending list of non-full chunk indices, buffer length =
capacity, and `size` = total population count. -/
def WF (s : sparse_vector V) : Prop :=
  s.capacity % 64 = 0 ∧
  s.bitsets.length = s.capacity / 64 ∧
  (∀ w ∈ s.bitsets, w < 2 ^ 64) ∧
  s.indices = reg s.bitsets ∧
  s.data.length = s.capacity ∧
  s.size = totalPop s.bitsets

instance (s : sparse_vector V) : Decidable (WF s) := by
  unfold WF; infer_instance

end sparse_vector

/-- Public operations used in the concrete test programs. -/
inductive Op where
  | push (v : Nat)
  | insert (i : Nat) (v : Nat)
  | erase (i : Nat)
  | clear
  | shrinkToFit
  deriving DecidableEq

/-- One public operation on a `sparse_vector Nat` (`none` when `push`
hits the zero-capacity undefined behaviour). -/
def stepOp (s : sparse_vector Nat) : Op → Option (sparse_vector Nat)
  | .push v => (s.push v).map Prod.snd
  | .insert i v => some (s.insert i v)
  | .erase i => some (s.erase i)
  | .clear => some (s.clear)
  | .shrinkToFit => some s.shrink_to_fit

/-- Run a list of public operations. -/
def runOps : sparse_vector Nat → List Op → Option (sparse_vector Nat)
  | s, [] => some s
  | s, op :: l =>
    match stepOp s op with
    | none => none
    | some s' => runOps s' l

/-- Push a list of values, collecting the returned handles. -/
def pushSeq : sparse_vector Nat → List Nat → Option (List Nat × sparse_vector Nat)
  | s, [] => some ([], s)
  | s, v :: vs =>
    match s.push v with
    | none => none
    | some (i, s') => (pushSeq s' vs).map fun p => (i :: p.1, p.2)

/-- push/erase operations for the round-trip property; `runPE` below
checks that each erase targets a live in-range index, which is the
validity hypothesis of the claim. -/
inductive POp where
  | push (v : Nat)
  | erase (i : Nat)
  deriving DecidableEq

/-- One push/erase step; an erase of a dead or out-of-range slot (undefined
behaviour, excluded by the claim) aborts the run. -/
def stepPE (s : sparse_vector Nat) : POp → Option (sparse_vector Nat)
  | .push v => (s.push v).map Prod.snd
  | .erase i =>
    if i < s.capacity ∧ sparse_vector.testSlot s.bitsets i then some (s.erase i) else none

/-- Run a list of push/erase operations. -/
def runPE : sparse_vector Nat → List POp → Option (sparse_vector Nat)
  | s, [] => some s
  | s, op :: l =>
    match stepPE s op with
    | none => none
    | some s' => runPE s' l

/-- Test program: 65 pushes (filling chunk 0 and slot 64) followed by
erasing slots 0..63; leaves exactly slot 64 live. -/
def progC1 : List Op := ((List.range 65).map Op.push) ++ ((List.range 64).map Op.erase)

/-- Test program: 65 pushes, erase slot 64 (leaving chunk 0 full and chunk
1 empty), then `shrink_to_fit`. -/
def progC2 : List Op := ((List.range 65).map Op.push) ++ [Op.erase 64, Op.shrinkToFit]

/-- Three-chunk container with a single live element, value 7, at slot 64
(the first slot of chunk 1). -/
def preC4 : sparse_vector Nat := (sparse_vector.create Nat 192).insert 64 7

/-- `preC4` after `shrink_to_fit` (the trailing chunk 2 is entirely free). -/
def sC4 : sparse_vector Nat := preC4.shrink_to_fit

/-- Two-chunk container with a single live element, value 7, at slot 64. -/
def sC5 : sparse_vector Nat := (sparse_vector.create Nat 128).insert 64 7

/-- 65 pushes of the values 100..164 from a fresh one-chunk container,
with the returned handles. -/
def outC8 : Option (List Nat × sparse_vector Nat) :=
  pushSeq (sparse_vector.create Nat 64) ((List.range 65).map fun k => 100 + k)

/-- One-chunk container after pushing values 10..15 (slots 0..5) and then
erasing slot 5 followed by slot 2. -/
def scenC6 : sparse_vector Nat :=
  (((runOps (sparse_vector.create Nat 64) ((List.range 6).map fun k => Op.push (10 + k))).getD
    (sparse_vector.create Nat 0)).erase 5).erase 2

/-- Fresh one-chunk container after pushing the value 1 (at slot 0). -/
def s1cC7 : sparse_vector Nat := (sparse_vector.create Nat 64).emplaceAt 0 1

/-- `scenC6` after its first push (value 99 lands in slot 2). -/
def scenC6b : sparse_vector Nat := scenC6.emplaceAt 2 99

/-- One-chunk container holding values 10, 11, 12 at slots 0, 1, 2. -/
def scenC9 : sparse_vector Nat :=
  (((sparse_vector.create Nat 64).emplaceAt 0 10).emplaceAt 1 11).emplaceAt 2 12

end Byte

/-! ### Helper lemmas: bit scanning -/

namespace Byte

namespace sparse_vector

theorem clzFrom_eq_64 (m : Nat) : ∀ k, (∀ b, b < k → m.testBit b = false) → clzFrom m k = 64 := by
  intro k
  induction k with
  | zero => intro _; rfl
  | succ k ih =>
    intro h
    rw [clzFrom, h k (Nat.lt_succ_self k)]
    simp only [Bool.false_eq_true, if_false]
    exact ih fun b hb => h b (hb.trans (Nat.lt_succ_self k))

theorem clzFrom_found (m L : Nat) (hL : m.testBit L = true)
    (hhi : ∀ b, L < b → m.testBit b = false) :
    ∀ k, L < k → clzFrom m k = 63 - L := by
  intro k
  induction k with
  | zero => intro h; exact absurd h (Nat.not_lt_zero L)
  | succ k ih =>
    intro hk
    rw [clzFrom]
    rcases Nat.lt_or_ge L k with h | h
    · rw [hhi k h]
      simp only [Bool.false_eq_true, if_false]
      exact ih h
    · have hLk : L = k := Nat.le_antisymm (Nat.lt_succ_iff.mp hk) h
      rw [← hLk, hL, if_pos rfl]

theorem testBit_log2_self (m : Nat) (h : m ≠ 0) : m.testBit m.log2 = true := by
  have h1 : 2 ^ m.log2 ≤ m := Nat.log2_self_le h
  have h2 : m < 2 ^ (m.log2 + 1) := Nat.lt_log2_self
  have hpos : 0 < 2 ^ m.log2 := Nat.pos_pow_of_pos _ (by omega)
  have hq : m / 2 ^ m.log2 = 1 := by
    have hlo : 1 ≤ m / 2 ^ m.log2 := (Nat.le_div_iff_mul_le hpos).mpr (by omega)
    have hhi : m / 2 ^ m.log2 < 2 := by
      rw [Nat.div_lt_iff_lt_mul hpos]
      calc m < 2 ^ (m.log2 + 1) := h2
        _ = 2 * 2 ^ m.log2 := by rw [Nat.pow_succ]; omega
    omega
  rw [Nat.testBit_to_div_mod, hq]
  decide

theorem testBit_gt_log2 (m b : Nat) (h : m.log2 < b) : m.testBit b = false := by
  rcases eq_or_ne m 0 with rfl | hm
  · exact Nat.zero_testBit b
  · refine Nat.testBit_lt_two_pow ?_
    calc m < 2 ^ (m.log2 + 1) := Nat.lt_log2_self
      _ ≤ 2 ^ b := Nat.pow_le_pow_right (by omega) (by omega)

theorem clz64_eq (m : Nat) (h0 : m ≠ 0) (hlt : m < 2 ^ 64) :
    clz64 m = 63 - m.log2 := by
  have hlog : m.log2 < 64 := (Nat.log2_lt h0).mpr hlt
  exact clzFrom_found m m.log2 (testBit_log2_self m h0) (testBit_gt_log2 m) 64 hlog

theorem clz64_zero : clz64 0 = 64 := by decide

/-! ### Helper lemmas: words and word vectors -/

theorem testBit_FULL (b : Nat) (h : b < 64) : FULL.testBit b = true := by
  unfold FULL
  rw [Nat.testBit_two_pow_sub_one]
  exact decide_eq_true h

theorem testBit_xor_FULL (w b : Nat) (hb : b < 64) :
    (w ^^^ FULL).testBit b = !w.testBit b := by
  rw [Nat.testBit_xor, testBit_FULL b hb, Bool.xor_true]

theorem FULL_lt : FULL < 2 ^ 64 := by decide

theorem getWord_set_self (bs : List Nat) (c w : Nat) (h : c < bs.length) :
    getWord (bs.set c w) c = w := by
  simp [getWord, List.getD_eq_getElem?_getD, List.getElem?_set_self (by simpa using h)]

theorem getWord_set_ne (bs : List Nat) (c w c' : Nat) (h : c' ≠ c) :
    getWord (bs.set c w) c' = getWord bs c' := by
  simp [getWord, List.getD_eq_getElem?_getD, List.getElem?_set_ne (Ne.symm h)]

theorem getWord_lt (bs : List Nat) (hw : ∀ w ∈ bs, w < 2 ^ 64) (c : Nat) :
    getWord bs c < 2 ^ 64 := by
  rw [getWord, List.getD_eq_getElem?_getD]
  cases h : bs[c]? with
  | none => simp
  | some w => exact hw w (List.getElem?_mem h)

theorem getWord_of_ge (bs : List Nat) (c : Nat) (h : bs.length ≤ c) :
    getWord bs c = 0 := by
  rw [getWord, List.getD_eq_getElem?_getD, List.getElem?_eq_none (by simpa using h)]
  rfl

theorem testSlot_mk (bs : List Nat) (i : Nat) :
    testSlot bs i = (getWord bs (i / 64)).testBit (63 - i % 64) := rfl

/-! ### Helper lemmas: the ordered registry -/

theorem mem_setInsert (x : Nat) :
    ∀ (l : List Nat) (y : Nat), y ∈ setInsert l x ↔ y = x ∨ y ∈ l := by
  intro l
  induction l with
  | nil => intro y; simp [setInsert]
  | cons a t ih =>
    intro y
    rw [setInsert]
    split_ifs with h1 h2
    · simp only [List.mem_cons]
    · subst h2
      simp only [List.mem_cons]
      tauto
    · simp only [List.mem_cons, ih y]
      tauto

theorem sorted_setInsert (x : Nat) :
    ∀ l : List Nat, l.Sorted (· < ·) → (setInsert l x).Sorted (· < ·) := by
  intro l
  induction l with
  | nil => intro _; simp [setInsert]
  | cons a t ih =>
    intro hs
    rcases List.sorted_cons.mp hs with ⟨ha, ht⟩
    rw [setInsert]
    by_cases h1 : x < a
    · rw [if_pos h1]
      refine List.sorted_cons.mpr ⟨?_, hs⟩
      intro b hb
      rcases List.mem_cons.mp hb with rfl | hb
      · exact h1
      · exact h1.trans (ha b hb)
    · rw [if_neg h1]
      by_cases h2 : x = a
      · rw [if_pos h2]; exact hs
      · rw [if_neg h2]
        refine List.sorted_cons.mpr ⟨?_, ih ht⟩
        intro b hb
        rcases (mem_setInsert x t b).mp hb with rfl | hb
        · omega
        · exact ha b hb

theorem mem_setErase (l : List Nat) (x y : Nat) :
    y ∈ setErase l x ↔ y ∈ l ∧ y ≠ x := by
  simp [setErase, List.mem_filter]

theorem sorted_setErase (l : List Nat) (x : Nat) (h : l.Sorted (· < ·)) :
    (setErase l x).Sorted (· < ·) :=
  List.Pairwise.filter _ h

theorem sorted_head_le (a x : Nat) (l : List Nat) (h : (a :: l).Sorted (· < ·))
    (hx : x ∈ a :: l) : a ≤ x := by
  rcases List.mem_cons.mp hx with rfl | hx
  · exact Nat.le_refl x
  · exact Nat.le_of_lt ((List.sorted_cons.mp h).1 x hx)

theorem sorted_eq_of_mem_iff :
    ∀ (l l' : List Nat), l.Sorted (· < ·) → l'.Sorted (· < ·) →
      (∀ x, x ∈ l ↔ x ∈ l') → l = l'
  | [], [], _, _, _ => rfl
  | [], b :: t', _, _, h => absurd ((h b).mpr (List.mem_cons_self b t')) (List.not_mem_nil b)
  | a :: t, [], _, _, h => absurd ((h a).mp (List.mem_cons_self a t)) (List.not_mem_nil a)
  | a :: t, b :: t', hs, hs', h => by
    have hab : a = b := by
      have h1 : a ≤ b := sorted_head_le a b t hs ((h b).mpr (List.mem_cons_self b t'))
      have h2 : b ≤ a := sorted_head_le b a t' hs' ((h a).mp (List.mem_cons_self a t))
      omega
    subst hab
    have htail : ∀ x, x ∈ t ↔ x ∈ t' := by
      intro x
      constructor
      · intro hx
        have hax : a < x := (List.sorted_cons.mp hs).1 x hx
        rcases List.mem_cons.mp ((h x).mp (List.mem_cons_of_mem a hx)) with rfl | hx'
        · omega
        · exact hx'
      · intro hx
        have hax : a < x := (List.sorted_cons.mp hs').1 x hx
        rcases List.mem_cons.mp ((h x).mpr (List.mem_cons_of_mem a hx)) with rfl | hx'
        · omega
        · exact hx'
    rw [sorted_eq_of_mem_iff t t' (List.sorted_cons.mp hs).2 (List.sorted_cons.mp hs').2 htail]

theorem reg_sorted (bs : List Nat) : (reg bs).Sorted (· < ·) :=
  List.Pairwise.filter _ (List.sorted_lt_range bs.length)

theorem mem_reg (bs : List Nat) (c : Nat) :
    c ∈ reg bs ↔ c < bs.length ∧ getWord bs c ≠ FULL := by
  simp [reg, List.mem_filter, List.mem_range]

theorem mem_foldl_setInsert :
    ∀ (xs l : List Nat) (x : Nat), x ∈ xs.foldl setInsert l ↔ x ∈ l ∨ x ∈ xs
  | [], l, x => by simp
  | y :: ys, l, x => by
    rw [List.foldl_cons, mem_foldl_setInsert ys (setInsert l y) x, mem_setInsert y l x,
      List.mem_cons]
    tauto

theorem sorted_foldl_setInsert :
    ∀ (xs l : List Nat), l.Sorted (· < ·) → (xs.foldl setInsert l).Sorted (· < ·)
  | [], _, h => h
  | y :: ys, l, h =>
    sorted_foldl_setInsert ys (setInsert l y) (sorted_setInsert y l h)

end sparse_vector

end Byte

/-! ### Helper lemmas: population counts -/

namespace Byte

namespace sparse_vector

theorem popc64_or_two_pow (w b : Nat) (hb : b < 64) (h : w.testBit b = false) :
    popc64 (w ||| 2 ^ b) = popc64 w + 1 := by
  unfold popc64
  have hset : (Finset.range 64).filter (fun x => (w ||| 2 ^ b).testBit x)
      = Insert.insert b ((Finset.range 64).filter fun x => w.testBit x) := by
    ext x
    simp only [Finset.mem_filter, Finset.mem_insert, Finset.mem_range, Nat.testBit_or]
    constructor
    · rintro ⟨hx, hor⟩
      rcases Bool.or_eq_true_iff.mp hor with hw | hp
      · exact Or.inr ⟨hx, hw⟩
      · rcases eq_or_ne b x with rfl | hne
        · exact Or.inl rfl
        · rw [Nat.testBit_two_pow_of_ne hne] at hp
          exact absurd hp (by simp)
    · rintro (rfl | ⟨hx, hw⟩)
      · exact ⟨hb, by rw [Nat.testBit_two_pow_self]; simp⟩
      · exact ⟨hx, by rw [hw]; simp⟩
  rw [hset, Finset.card_insert_of_not_mem (by simp [Finset.mem_filter, h])]

theorem popc64_clear_bit (w b : Nat) (hb : b < 64) (h : w.testBit b = true) :
    popc64 (w &&& (FULL ^^^ 2 ^ b)) + 1 = popc64 w := by
  unfold popc64
  have hmaskbit : ∀ x, x < 64 → (FULL ^^^ 2 ^ b).testBit x = !(decide (x = b)) := by
    intro x hx
    rw [Nat.testBit_xor, testBit_FULL x hx]
    rcases eq_or_ne b x with rfl | hne
    · rw [Nat.testBit_two_pow_self]; simp
    · rw [Nat.testBit_two_pow_of_ne hne]; simp [Ne.symm hne]
  have hset : (Finset.range 64).filter (fun x => (w &&& (FULL ^^^ 2 ^ b)).testBit x)
      = ((Finset.range 64).filter fun x => w.testBit x).erase b := by
    ext x
    simp only [Finset.mem_filter, Finset.mem_erase, Finset.mem_range, Nat.testBit_and]
    constructor
    · rintro ⟨hx, hand⟩
      rcases Bool.and_eq_true_iff.mp hand with ⟨hw, hm⟩
      rw [hmaskbit x hx] at hm
      refine ⟨?_, hx, hw⟩
      intro hxb
      rw [hxb] at hm
      simp at hm
    · rintro ⟨hne, hx, hw⟩
      exact ⟨hx, by rw [hw, hmaskbit x hx]; simp [hne]⟩
  rw [hset, Finset.card_erase_of_mem (by simp [Finset.mem_filter, h, hb])]
  have hpos : 0 < ((Finset.range 64).filter fun x => w.testBit x).card :=
    Finset.card_pos.mpr ⟨b, by simp [Finset.mem_filter, h, hb]⟩
  omega

theorem popc64_pos (w b : Nat) (hb : b < 64) (h : w.testBit b = true) : 1 ≤ popc64 w :=
  Finset.card_pos.mpr ⟨b, by simp [popc64, Finset.mem_filter, h, hb]⟩

theorem popc64_zero : popc64 0 = 0 := by decide

theorem totalPop_set (bs : List Nat) :
    ∀ (c w : Nat), c < bs.length →
      totalPop (bs.set c w) + popc64 (getWord bs c) = totalPop bs + popc64 w := by
  induction bs with
  | nil => intro c w h; simp at h
  | cons a t ih =>
    intro c w h
    cases c with
    | zero =>
      simp only [List.set_cons_zero, totalPop, List.map_cons, List.sum_cons, getWord,
        List.getD_cons_zero]
      omega
    | succ c =>
      simp only [List.set_cons_succ, totalPop, List.map_cons, List.sum_cons, getWord,
        List.getD_cons_succ]
      have := ih c w (by simpa using h)
      simp only [totalPop, getWord] at this
      omega

theorem totalPop_append (a b : List Nat) : totalPop (a ++ b) = totalPop a + totalPop b := by
  simp [totalPop]

theorem totalPop_replicate_zero (n : Nat) : totalPop (List.replicate n 0) = 0 := by
  induction n with
  | zero => rfl
  | succ n ih =>
    rw [List.replicate_succ]
    have hstep : totalPop (0 :: List.replicate n 0) = popc64 0 + totalPop (List.replicate n 0) := by
      simp [totalPop]
    rw [hstep, popc64_zero, ih]

theorem popc64_ge_of_bit (bs : List Nat) (i : Nat) (hlen : i / 64 < bs.length)
    (h : testSlot bs i = true) : 1 ≤ totalPop bs := by
  have hb : 63 - i % 64 < 64 := by omega
  have h1 : 1 ≤ popc64 (getWord bs (i / 64)) := popc64_pos _ _ hb h
  have hmem : popc64 (getWord bs (i / 64)) ∈ bs.map popc64 := by
    refine List.mem_map.mpr ⟨getWord bs (i / 64), ?_, rfl⟩
    rw [getWord, List.getD_eq_getElem?_getD]
    cases hg : bs[i / 64]? with
    | none => exact absurd hg (by simp [List.getElem?_eq_none_iff]; omega)
    | some w => simpa using List.getElem?_mem hg
  calc 1 ≤ popc64 (getWord bs (i / 64)) := h1
    _ ≤ (bs.map popc64).sum := List.single_le_sum (fun x _ => Nat.zero_le x) _ hmem

end sparse_vector

end Byte

/-! ### Helper lemmas: expand -/

namespace Byte

namespace sparse_vector

variable {V : Type}

theorem getD_replicate_zero (k m : Nat) : (List.replicate m (0 : Nat)).getD k 0 = 0 := by
  rw [List.getD_eq_getElem?_getD, List.getElem?_replicate]
  split <;> rfl

theorem resize_getWord (bs : List Nat) (n : Nat) (h : bs.length ≤ n) (c : Nat) :
    getWord (resizeBitsets bs n) c = getWord bs c := by
  unfold resizeBitsets
  rw [List.take_of_length_le h]
  rcases Nat.lt_or_ge c bs.length with hc | hc
  · rw [getWord, getWord, List.getD_append _ _ _ _ hc]
  · rw [getWord, getWord, List.getD_append_right _ _ _ _ hc, getD_replicate_zero,
      List.getD_eq_getElem?_getD, List.getElem?_eq_none hc]
    rfl

theorem resize_length (bs : List Nat) (n : Nat) (h : bs.length ≤ n) :
    (resizeBitsets bs n).length = n := by
  unfold resizeBitsets
  rw [List.take_of_length_le h]
  simp
  omega

theorem resize_mem (bs : List Nat) (n : Nat) (w : Nat) (hw : w ∈ resizeBitsets bs n) :
    w ∈ bs ∨ w = 0 := by
  unfold resizeBitsets at hw
  rcases List.mem_append.mp hw with h | h
  · exact Or.inl (List.mem_of_mem_take h)
  · exact Or.inr (List.eq_of_mem_replicate h)

theorem resize_totalPop (bs : List Nat) (n : Nat) (h : bs.length ≤ n) :
    totalPop (resizeBitsets bs n) = totalPop bs := by
  unfold resizeBitsets
  rw [List.take_of_length_le h, totalPop_append, totalPop_replicate_zero]
  omega

theorem expand_testSlot (s : sparse_vector V) (newCap : Nat)
    (h : s.bitsets.length ≤ newCap / 64) (i : Nat) :
    testSlot (s.expand newCap).bitsets i = testSlot s.bitsets i := by
  show testSlot (resizeBitsets s.bitsets (newCap / 64)) i = testSlot s.bitsets i
  unfold testSlot
  rw [resize_getWord _ _ h]

theorem expand_WF (s : sparse_vector V) (newCap : Nat) (hWF : WF s)
    (hcap : s.capacity ≤ newCap) (hmod : newCap % 64 = 0) :
    WF (s.expand newCap) := by
  obtain ⟨h1, h2, h3, h4, h5, h6⟩ := hWF
  have hlen : s.bitsets.length ≤ newCap / 64 := by
    rw [h2]; exact Nat.div_le_div_right hcap
  refine ⟨hmod, ?_, ?_, ?_, ?_, ?_⟩
  · show (resizeBitsets s.bitsets (newCap / 64)).length = newCap / 64
    exact resize_length _ _ hlen
  · intro w hw
    rcases resize_mem _ _ _ hw with h | rfl
    · exact h3 w h
    · decide
  · show (List.range' (s.capacity / 64) (newCap / 64 - s.capacity / 64)).foldl setInsert s.indices
      = reg (resizeBitsets s.bitsets (newCap / 64))
    apply sorted_eq_of_mem_iff
    · exact sorted_foldl_setInsert _ _ (by rw [h4]; exact reg_sorted s.bitsets)
    · exact reg_sorted _
    · intro x
      rw [mem_foldl_setInsert, h4, mem_reg, mem_reg, resize_length _ _ hlen,
        resize_getWord _ _ hlen, List.mem_range']
      constructor
      · rintro (⟨hx, hne⟩ | ⟨k, hk, rfl⟩)
        · exact ⟨by omega, hne⟩
        · refine ⟨by omega, ?_⟩
          rw [getWord_of_ge _ _ (by omega)]
          decide
      · rintro ⟨hx, hne⟩
        rcases Nat.lt_or_ge x s.bitsets.length with hlt | hge
        · exact Or.inl ⟨hlt, hne⟩
        · exact Or.inr ⟨x - s.capacity / 64, by omega, by omega⟩
  · show ((List.range newCap).map _).length = newCap
    simp
  · show s.size = totalPop (resizeBitsets s.bitsets (newCap / 64))
    rw [resize_totalPop _ _ hlen]
    exact h6

end sparse_vector

end Byte

/-! ### Helper lemmas: `_emplace` and `erase` -/

namespace Byte

namespace sparse_vector

variable {V : Type}

theorem bit_ne_of_slot_ne (i j : Nat) (h : j ≠ i) (hc : j / 64 = i / 64) :
    63 - j % 64 ≠ 63 - i % 64 := by
  omega

theorem emplaceAt_spec (s : sparse_vector V) (i : Nat) (v : V) (hWF : WF s)
    (hi : i < s.capacity) (hfree : testSlot s.bitsets i = false) :
    WF (s.emplaceAt i v) ∧
    (s.emplaceAt i v).capacity = s.capacity ∧
    (s.emplaceAt i v).size = s.size + 1 ∧
    testSlot (s.emplaceAt i v).bitsets i = true ∧
    (∀ j, j ≠ i → testSlot (s.emplaceAt i v).bitsets j = testSlot s.bitsets j) := by
  obtain ⟨h1, h2, h3, h4, h5, h6⟩ := hWF
  have hc : i / 64 < s.bitsets.length := by rw [h2]; omega
  have hb : 63 - i % 64 < 64 := by omega
  have hw64 : getWord s.bitsets (i / 64) < 2 ^ 64 := getWord_lt _ h3 _
  have hpow : (2 : Nat) ^ (63 - i % 64) < 2 ^ 64 :=
    Nat.pow_lt_pow_right (by omega) hb
  have hw'64 : getWord s.bitsets (i / 64) ||| 2 ^ (63 - i % 64) < 2 ^ 64 :=
    Nat.or_lt_two_pow hw64 hpow
  have hwne : getWord s.bitsets (i / 64) ≠ FULL := by
    intro hfull
    rw [testSlot_mk, hfull, testBit_FULL _ hb] at hfree
    exact absurd hfree (by simp)
  have hbits : (s.emplaceAt i v).bitsets
      = s.bitsets.set (i / 64) (getWord s.bitsets (i / 64) ||| 2 ^ (63 - i % 64)) := rfl
  have hgetset : getWord (s.emplaceAt i v).bitsets (i / 64)
      = getWord s.bitsets (i / 64) ||| 2 ^ (63 - i % 64) := by
    rw [hbits, getWord_set_self _ _ _ hc]
  have htest : testSlot (s.emplaceAt i v).bitsets i = true := by
    rw [testSlot_mk, hgetset, Nat.testBit_or, Nat.testBit_two_pow_self, Bool.or_true]
  have hframe : ∀ j, j ≠ i → testSlot (s.emplaceAt i v).bitsets j = testSlot s.bitsets j := by
    intro j hj
    rcases eq_or_ne (j / 64) (i / 64) with hcc | hcc
    · rw [testSlot_mk, testSlot_mk, hcc, hgetset, Nat.testBit_or,
        Nat.testBit_two_pow_of_ne (Ne.symm (bit_ne_of_slot_ne i j hj hcc)), Bool.or_false]
    · rw [testSlot_mk, testSlot_mk, hbits, getWord_set_ne _ _ _ _ hcc]
  refine ⟨⟨h1, ?_, ?_, ?_, ?_, ?_⟩, rfl, rfl, htest, hframe⟩
  · rw [hbits, List.length_set, h2]
    rfl
  · intro w hw
    rw [hbits] at hw
    rcases List.mem_or_eq_of_mem_set hw with h | rfl
    · exact h3 w h
    · exact hw'64
  · show (if getWord s.bitsets (i / 64) ||| 2 ^ (63 - i % 64) = FULL
        then setErase s.indices (i / 64) else s.indices) = reg (s.emplaceAt i v).bitsets
    have hlen' : (s.emplaceAt i v).bitsets.length = s.bitsets.length := by
      rw [hbits, List.length_set]
    by_cases hfull : getWord s.bitsets (i / 64) ||| 2 ^ (63 - i % 64) = FULL
    · rw [if_pos hfull]
      apply sorted_eq_of_mem_iff
      · exact sorted_setErase _ _ (by rw [h4]; exact reg_sorted _)
      · exact reg_sorted _
      · intro x
        rw [mem_setErase, h4, mem_reg, mem_reg, hlen']
        constructor
        · rintro ⟨⟨hx, hne⟩, hxc⟩
          refine ⟨hx, ?_⟩
          rw [hbits, getWord_set_ne _ _ _ _ hxc]
          exact hne
        · rintro ⟨hx, hne⟩
          rcases eq_or_ne x (i / 64) with rfl | hxc
          · rw [hbits, getWord_set_self _ _ _ hc] at hne
            exact absurd hfull hne
          · rw [hbits, getWord_set_ne _ _ _ _ hxc] at hne
            exact ⟨⟨hx, hne⟩, hxc⟩
    · rw [if_neg hfull]
      apply sorted_eq_of_mem_iff
      · rw [h4]; exact reg_sorted _
      · exact reg_sorted _
      · intro x
        rw [h4, mem_reg, mem_reg, hlen']
        rcases eq_or_ne x (i / 64) with rfl | hxc
        · rw [hbits, getWord_set_self _ _ _ hc]
          exact ⟨fun ⟨hx, _⟩ => ⟨hx, hfull⟩, fun ⟨hx, _⟩ => ⟨hx, hwne⟩⟩
        · rw [hbits, getWord_set_ne _ _ _ _ hxc]
  · show (s.data.set i (some v)).length = s.capacity
    rw [List.length_set, h5]
  · show s.size + 1 = totalPop (s.emplaceAt i v).bitsets
    have := totalPop_set s.bitsets (i / 64)
      (getWord s.bitsets (i / 64) ||| 2 ^ (63 - i % 64)) hc
    have hpc : popc64 (getWord s.bitsets (i / 64) ||| 2 ^ (63 - i % 64))
        = popc64 (getWord s.bitsets (i / 64)) + 1 :=
      popc64_or_two_pow _ _ hb hfree
    rw [hbits]
    omega

theorem erase_spec (s : sparse_vector V) (i : Nat) (hWF : WF s)
    (hi : i < s.capacity) (hlive : testSlot s.bitsets i = true) :
    WF (s.erase i) ∧
    (s.erase i).capacity = s.capacity ∧
    (s.erase i).size + 1 = s.size ∧
    testSlot (s.erase i).bitsets i = false ∧
    (∀ j, j ≠ i → testSlot (s.erase i).bitsets j = testSlot s.bitsets j) ∧
    (∀ c, c ≠ i / 64 → getWord (s.erase i).bitsets c = getWord s.bitsets c) ∧
    (∀ c, c ≠ i / 64 → (c ∈ (s.erase i).indices ↔ c ∈ s.indices)) := by
  obtain ⟨h1, h2, h3, h4, h5, h6⟩ := hWF
  have hc : i / 64 < s.bitsets.length := by rw [h2]; omega
  have hb : 63 - i % 64 < 64 := by omega
  have hw64 : getWord s.bitsets (i / 64) < 2 ^ 64 := getWord_lt _ h3 _
  have hmask64 : FULL ^^^ 2 ^ (63 - i % 64) < 2 ^ 64 :=
    Nat.xor_lt_two_pow FULL_lt (Nat.pow_lt_pow_right (by omega) hb)
  have hw''64 : getWord s.bitsets (i / 64) &&& (FULL ^^^ 2 ^ (63 - i % 64)) < 2 ^ 64 :=
    Nat.and_lt_two_pow _ hmask64
  have hmaskbit : ∀ x, x < 64 →
      (FULL ^^^ 2 ^ (63 - i % 64)).testBit x = !(decide (x = 63 - i % 64)) := by
    intro x hx
    rw [Nat.testBit_xor, testBit_FULL x hx]
    rcases eq_or_ne (63 - i % 64) x with h | hne
    · rw [← h, Nat.testBit_two_pow_self]
      simp [h]
    · rw [Nat.testBit_two_pow_of_ne hne]
      simp [Ne.symm hne]
  have hbits : (s.erase i).bitsets
      = s.bitsets.set (i / 64)
          (getWord s.bitsets (i / 64) &&& (FULL ^^^ 2 ^ (63 - i % 64))) := rfl
  have hgetset : getWord (s.erase i).bitsets (i / 64)
      = getWord s.bitsets (i / 64) &&& (FULL ^^^ 2 ^ (63 - i % 64)) := by
    rw [hbits, getWord_set_self _ _ _ hc]
  have hw''ne : getWord s.bitsets (i / 64) &&& (FULL ^^^ 2 ^ (63 - i % 64)) ≠ FULL := by
    intro hfull
    have : (getWord s.bitsets (i / 64) &&& (FULL ^^^ 2 ^ (63 - i % 64))).testBit (63 - i % 64)
        = false := by
      rw [Nat.testBit_and, hmaskbit _ hb]
      simp
    rw [hfull, testBit_FULL _ hb] at this
    exact absurd this (by simp)
  have htest : testSlot (s.erase i).bitsets i = false := by
    rw [testSlot_mk, hgetset, Nat.testBit_and, hmaskbit _ hb]
    simp
  have hframe : ∀ j, j ≠ i → testSlot (s.erase i).bitsets j = testSlot s.bitsets j := by
    intro j hj
    rcases eq_or_ne (j / 64) (i / 64) with hcc | hcc
    · have hbj : 63 - j % 64 < 64 := by omega
      rw [testSlot_mk, testSlot_mk, hcc, hgetset, Nat.testBit_and, hmaskbit _ hbj]
      have : decide (63 - j % 64 = 63 - i % 64) = false :=
        decide_eq_false (bit_ne_of_slot_ne i j hj hcc)
      rw [this]
      simp
    · rw [testSlot_mk, testSlot_mk, hbits, getWord_set_ne _ _ _ _ hcc]
  have hwordframe : ∀ c, c ≠ i / 64 → getWord (s.erase i).bitsets c = getWord s.bitsets c := by
    intro c hcc
    rw [hbits, getWord_set_ne _ _ _ _ hcc]
  have hindframe : ∀ c, c ≠ i / 64 → (c ∈ (s.erase i).indices ↔ c ∈ s.indices) := by
    intro c hcc
    show c ∈ (if getWord s.bitsets (i / 64) = FULL
        then setInsert s.indices (i / 64) else s.indices) ↔ c ∈ s.indices
    by_cases hfull : getWord s.bitsets (i / 64) = FULL
    · rw [if_pos hfull, mem_setInsert]
      constructor
      · rintro (rfl | h)
        · exact absurd rfl hcc
        · exact h
      · exact Or.inr
    · rw [if_neg hfull]
  refine ⟨⟨h1, ?_, ?_, ?_, ?_, ?_⟩, rfl, ?_, htest, hframe, hwordframe, hindframe⟩
  · rw [hbits, List.length_set, h2]
    rfl
  · intro w hw
    rw [hbits] at hw
    rcases List.mem_or_eq_of_mem_set hw with h | rfl
    · exact h3 w h
    · exact hw''64
  · show (if getWord s.bitsets (i / 64) = FULL
        then setInsert s.indices (i / 64) else s.indices) = reg (s.erase i).bitsets
    have hlen' : (s.erase i).bitsets.length = s.bitsets.length := by
      rw [hbits, List.length_set]
    by_cases hfull : getWord s.bitsets (i / 64) = FULL
    · rw [if_pos hfull]
      apply sorted_eq_of_mem_iff
      · exact sorted_setInsert _ _ (by rw [h4]; exact reg_sorted _)
      · exact reg_sorted _
      · intro x
        rw [mem_setInsert, h4, mem_reg, mem_reg, hlen']
        constructor
        · rintro (rfl | ⟨hx, hne⟩)
          · exact ⟨hc, by rw [hgetset]; exact hw''ne⟩
          · rcases eq_or_ne x (i / 64) with rfl | hxc
            · exact absurd hfull hne
            · rw [hbits, getWord_set_ne _ _ _ _ hxc]
              exact ⟨hx, hne⟩
        · rintro ⟨hx, hne⟩
          rcases eq_or_ne x (i / 64) with rfl | hxc
          · exact Or.inl rfl
          · rw [hbits, getWord_set_ne _ _ _ _ hxc] at hne
            exact Or.inr ⟨hx, hne⟩
    · rw [if_neg hfull]
      apply sorted_eq_of_mem_iff
      · rw [h4]; exact reg_sorted _
      · exact reg_sorted _
      · intro x
        rw [h4, mem_reg, mem_reg, hlen']
        rcases eq_or_ne x (i / 64) with rfl | hxc
        · rw [hgetset]
          exact ⟨fun ⟨hx, _⟩ => ⟨hx, hw''ne⟩, fun ⟨hx, _⟩ => ⟨hx, hfull⟩⟩
        · rw [hbits, getWord_set_ne _ _ _ _ hxc]
  · show (s.data.set i none).length = s.capacity
    rw [List.length_set, h5]
  · show s.size - 1 = totalPop (s.erase i).bitsets
    have hts := totalPop_set s.bitsets (i / 64)
      (getWord s.bitsets (i / 64) &&& (FULL ^^^ 2 ^ (63 - i % 64))) hc
    have hpc := popc64_clear_bit (getWord s.bitsets (i / 64)) (63 - i % 64) hb hlive
    rw [hbits]
    omega
  · show s.size - 1 + 1 = s.size
    have := popc64_ge_of_bit s.bitsets i hc hlive
    omega

end sparse_vector

end Byte

/-! ### Helper lemmas: the push scan returns the least free slot -/

namespace Byte

namespace sparse_vector

variable {V : Type}

theorem scan_least (s1 : sparse_vector V) (hWF : WF s1) (c i : Nat)
    (hhead : s1.indices.head? = some c)
    (hi : i = clz64 (getWord s1.bitsets c ^^^ FULL) + c * 64) :
    i < s1.capacity ∧ testSlot s1.bitsets i = false ∧
      ∀ j, j < i → testSlot s1.bitsets j = true := by
  obtain ⟨h1, h2, h3, h4, h5, h6⟩ := hWF
  obtain ⟨t, hl⟩ : ∃ t, s1.indices = c :: t := by
    cases hcl : s1.indices with
    | nil => rw [hcl] at hhead; cases hhead
    | cons a t =>
      rw [hcl] at hhead
      cases hhead
      exact ⟨t, rfl⟩
  have hsorted : (c :: t).Sorted (· < ·) := by
    rw [← hl, h4]; exact reg_sorted _
  have hmin : ∀ x, x ∈ s1.indices → c ≤ x := by
    intro x hx
    rw [hl] at hx
    exact sorted_head_le c x t hsorted hx
  have hcmem : c ∈ reg s1.bitsets := by
    rw [← h4, hl]; exact List.mem_cons_self c t
  obtain ⟨hclen, hcw⟩ := (mem_reg _ _).mp hcmem
  have hw64 : getWord s1.bitsets c < 2 ^ 64 := getWord_lt _ h3 _
  have hnw0 : getWord s1.bitsets c ^^^ FULL ≠ 0 := fun h => hcw (Nat.xor_eq_zero.mp h)
  have hnwlt : getWord s1.bitsets c ^^^ FULL < 2 ^ 64 := Nat.xor_lt_two_pow hw64 FULL_lt
  have hlog : (getWord s1.bitsets c ^^^ FULL).log2 < 64 := (Nat.log2_lt hnw0).mpr hnwlt
  have hclz : clz64 (getWord s1.bitsets c ^^^ FULL) = 63 - (getWord s1.bitsets c ^^^ FULL).log2 :=
    clz64_eq _ hnw0 hnwlt
  rw [hclz] at hi
  have hi64 : i % 64 = 63 - (getWord s1.bitsets c ^^^ FULL).log2 := by omega
  have hidiv : i / 64 = c := by omega
  have hfreebit : (getWord s1.bitsets c).testBit ((getWord s1.bitsets c ^^^ FULL).log2) = false := by
    have hx := testBit_xor_FULL (getWord s1.bitsets c) _ hlog
    rw [testBit_log2_self _ hnw0] at hx
    cases hwb : (getWord s1.bitsets c).testBit ((getWord s1.bitsets c ^^^ FULL).log2) with
    | false => rfl
    | true => rw [hwb] at hx; exact absurd hx (by simp)
  have hcap64 : s1.capacity = 64 * s1.bitsets.length := by omega
  refine ⟨by omega, ?_, ?_⟩
  · rw [testSlot_mk, hidiv, hi64]
    have : 63 - (63 - (getWord s1.bitsets c ^^^ FULL).log2)
        = (getWord s1.bitsets c ^^^ FULL).log2 := by omega
    rw [this]
    exact hfreebit
  · intro j hj
    have hjdiv : j / 64 ≤ c := by omega
    rcases Nat.lt_or_ge (j / 64) c with hcc | hcc
    · have hnotmem : j / 64 ∉ s1.indices := by
        intro hmem
        exact absurd (hmin _ hmem) (by omega)
      rw [h4, mem_reg] at hnotmem
      have hword : getWord s1.bitsets (j / 64) = FULL := by
        by_contra hne
        exact hnotmem ⟨by omega, hne⟩
      rw [testSlot_mk, hword, testBit_FULL _ (by omega)]
    · have hjc : j / 64 = c := by omega
      have hjq : j % 64 < i % 64 := by omega
      have hgt : (getWord s1.bitsets c ^^^ FULL).log2 < 63 - j % 64 := by omega
      have hx := testBit_xor_FULL (getWord s1.bitsets c) (63 - j % 64) (by omega)
      rw [testBit_gt_log2 _ _ hgt] at hx
      rw [testSlot_mk, hjc]
      cases hwb : (getWord s1.bitsets c).testBit (63 - j % 64) with
      | false => rw [hwb] at hx; exact absurd hx.symm (by simp)
      | true => rfl

theorem push_spec (s : sparse_vector V) (v : V) (hWF : WF s) (hcap : 0 < s.capacity) :
    ∃ i s', s.push v = some (i, s') ∧ WF s' ∧ 0 < s'.capacity ∧ s.capacity ≤ s'.capacity ∧
      testSlot s.bitsets i = false ∧ testSlot s'.bitsets i = true ∧
      (∀ j, j ≠ i → testSlot s'.bitsets j = testSlot s.bitsets j) ∧
      s'.size = s.size + 1 ∧
      (s.indices ≠ [] → i < s.capacity ∧ ∀ j, j < i → testSlot s.bitsets j = true) := by
  have h1 := hWF.1
  have h2 := hWF.2.1
  by_cases hemp : s.indices = []
  · -- growth path
    have hWF1 : WF (s.expand (2 * s.capacity)) :=
      expand_WF s (2 * s.capacity) hWF (by omega) (by omega)
    have hlen : s.bitsets.length ≤ 2 * s.capacity / 64 := by rw [h2]; omega
    have hts : ∀ i, testSlot (s.expand (2 * s.capacity)).bitsets i = testSlot s.bitsets i :=
      expand_testSlot s _ hlen
    have hmem : s.capacity / 64 ∈ (s.expand (2 * s.capacity)).indices := by
      show s.capacity / 64
        ∈ (List.range' (s.capacity / 64) (2 * s.capacity / 64 - s.capacity / 64)).foldl
            setInsert s.indices
      rw [mem_foldl_setInsert]
      refine Or.inr (List.mem_range'.mpr ⟨0, by omega, by omega⟩)
    obtain ⟨c, t, hl⟩ := List.exists_cons_of_ne_nil (List.ne_nil_of_mem hmem)
    have hhead : (s.expand (2 * s.capacity)).indices.head? = some c := by
      rw [hl]; rfl
    obtain ⟨hlt, hfree, _⟩ := scan_least _ hWF1 c
      (clz64 (getWord (s.expand (2 * s.capacity)).bitsets c ^^^ FULL) + c * 64) hhead rfl
    obtain ⟨hWF', hcap', hsize', htest', hframe'⟩ :=
      emplaceAt_spec (s.expand (2 * s.capacity)) _ v hWF1 hlt hfree
    refine ⟨_, _, ?_, hWF', ?_, ?_, ?_, htest', ?_, ?_, fun h => absurd hemp h⟩
    · show s.push v = _
      simp only [push, if_pos hemp]
      rw [hl]
      rfl
    · show 0 < (s.expand (2 * s.capacity)).capacity
      show 0 < 2 * s.capacity
      omega
    · show s.capacity ≤ 2 * s.capacity
      omega
    · rw [← hts _]
      exact hfree
    · intro j hj
      rw [hframe' j hj, hts]
    · show _ = s.size + 1
      exact hsize'
  · -- no-growth path
    obtain ⟨c, t, hl⟩ := List.exists_cons_of_ne_nil hemp
    have hhead : s.indices.head? = some c := by rw [hl]; rfl
    obtain ⟨hlt, hfree, hleast⟩ := scan_least s hWF c
      (clz64 (getWord s.bitsets c ^^^ FULL) + c * 64) hhead rfl
    obtain ⟨hWF', hcap', hsize', htest', hframe'⟩ :=
      emplaceAt_spec s _ v hWF hlt hfree
    refine ⟨_, _, ?_, hWF', ?_, ?_, hfree, htest', hframe', hsize', fun _ => ⟨hlt, hleast⟩⟩
    · show s.push v = _
      simp only [push, if_neg hemp]
      rw [hl]
      rfl
    · rw [hcap']
      omega
    · rw [hcap']

end sparse_vector

end Byte

/-! ### Helper lemmas: iteration over an all-free container -/

namespace Byte

namespace sparse_vector

variable {V : Type}

theorem advanceLoop_zeros (bs : List Nat) (hz : ∀ c, c < bs.length → getWord bs c = 0) :
    ∀ fuel c, c ≤ bs.length → bs.length ≤ c + fuel →
      advanceLoop bs fuel c (c * 64) = bs.length * 64 := by
  intro fuel
  induction fuel with
  | zero =>
    intro c hle hge
    have : c = bs.length := by omega
    rw [advanceLoop, this]
  | succ fuel ih =>
    intro c hle hge
    rw [advanceLoop]
    rcases Nat.lt_or_ge c bs.length with hc | hc
    · rw [if_pos hc, hz c hc]
      simp only [Nat.zero_and, clz64_zero, ne_eq, not_true_eq_false, if_false]
      have hmod : c * 64 % 64 = 0 := Nat.mul_mod_left c 64
      have harg : c * 64 + (64 - c * 64 % 64) = (c + 1) * 64 := by rw [hmod]; ring
      rw [harg]
      exact ih (c + 1) (by omega) (by omega)
    · rw [if_neg (by omega)]
      have : c = bs.length := by omega
      rw [this]

theorem words_zero_of_dead (s : sparse_vector V) (hWF : WF s)
    (hdead : ∀ k, k < s.capacity → testSlot s.bitsets k = false) :
    ∀ c, c < s.bitsets.length → getWord s.bitsets c = 0 := by
  obtain ⟨h1, h2, h3, _, _, _⟩ := hWF
  intro c hc
  apply Nat.eq_of_testBit_eq
  intro b
  rw [Nat.zero_testBit]
  rcases Nat.lt_or_ge b 64 with hb | hb
  · have hk : c * 64 + (63 - b) < s.capacity := by omega
    have := hdead (c * 64 + (63 - b)) hk
    rw [testSlot_mk] at this
    have hdivk : (c * 64 + (63 - b)) / 64 = c := by omega
    have hmodk : 63 - (c * 64 + (63 - b)) % 64 = b := by omega
    rw [hdivk, hmodk] at this
    exact this
  · exact Nat.testBit_lt_two_pow (lt_of_lt_of_le (getWord_lt _ h3 c)
      (Nat.pow_le_pow_right (by omega) hb))

/-! ### Helper lemmas: push/erase traces -/

theorem stepPE_spec (s s' : Byte.sparse_vector Nat) (op : POp) (h : stepPE s op = some s')
    (hWF : WF s) (hcap : 0 < s.capacity) :
    WF s' ∧ 0 < s'.capacity ∧
      ∀ k, op ≠ POp.erase k → testSlot s.bitsets k = true → testSlot s'.bitsets k = true := by
  cases op with
  | push v =>
    obtain ⟨i, s'', hpush, hWF', hcap', _, hfree, htest, hframe, _, _⟩ := push_spec s v hWF hcap
    simp only [stepPE, hpush, Option.map_some'] at h
    cases h
    refine ⟨hWF', hcap', ?_⟩
    intro k _ hk
    rcases eq_or_ne k i with rfl | hki
    · exact htest
    · rw [hframe k hki]
      exact hk
  | erase i =>
    simp only [stepPE] at h
    split at h
    · rename_i hcond
      cases h
      obtain ⟨hWF', hcap', _, _, hframe, _, _⟩ :=
        erase_spec s i hWF hcond.1 (by exact hcond.2)
      refine ⟨hWF', by omega, ?_⟩
      intro k hop hk
      have hki : k ≠ i := fun hik => hop (by rw [hik])
      rw [hframe k hki]
      exact hk
    · cases h

theorem runPE_spec : ∀ (ops : List POp) (s s' : Byte.sparse_vector Nat),
    runPE s ops = some s' → WF s → 0 < s.capacity →
    WF s' ∧ 0 < s'.capacity ∧
      ∀ k, POp.erase k ∉ ops → testSlot s.bitsets k = true → testSlot s'.bitsets k = true := by
  intro ops
  induction ops with
  | nil =>
    intro s s' h hWF hcap
    cases h
    exact ⟨hWF, hcap, fun _ _ hk => hk⟩
  | cons op l ih =>
    intro s s' h hWF hcap
    rw [runPE] at h
    cases hstep : stepPE s op with
    | none => rw [hstep] at h; cases h
    | some s1 =>
      rw [hstep] at h
      obtain ⟨hWF1, hcap1, hframe1⟩ := stepPE_spec s s1 op hstep hWF hcap
      obtain ⟨hWF', hcap', hframe'⟩ := ih s1 s' h hWF1 hcap1
      refine ⟨hWF', hcap', ?_⟩
      intro k hmem hk
      have hop : op ≠ POp.erase k := fun he => hmem (by rw [he]; exact List.mem_cons_self _ _)
      have hl : POp.erase k ∉ l := fun he => hmem (List.mem_cons_of_mem _ he)
      exact hframe' k hl (hframe1 k hop hk)

end sparse_vector

end Byte

/-! ### Remaining shared helpers -/

namespace Byte

namespace sparse_vector

variable {V : Type}

theorem getD_set_ne_poly {α : Type} (l : List α) (c : Nat) (a d : α) (c' : Nat)
    (h : c' ≠ c) : (l.set c a).getD c' d = l.getD c' d := by
  simp [List.getD_eq_getElem?_getD, List.getElem?_set_ne (Ne.symm h)]

theorem emplaceNew_eq_push (s : sparse_vector V) (v : V) : s.emplaceNew v = s.push v := by
  unfold emplaceNew free_index push
  cases h : (if s.indices = [] then s.expand (2 * s.capacity) else s).indices.head? <;>
    simp [h]

theorem push_eq_none (s : sparse_vector V) (v : V) (h1 : s.indices = [])
    (h2 : (s.expand (2 * s.capacity)).indices = []) : s.push v = none := by
  simp only [push, if_pos h1, h2]
  rfl

end sparse_vector

end Byte

/-! ### The claims -/

namespace Byte

open sparse_vector

/-- Claim C3, counterexample: on a fresh one-chunk container, `clear()`
leaves `capacity() = 0`, not the claimed initial minimum `CHUNK_SIZE = 64`,
and the push immediately after `clear()` does not return index 0 — it finds
an empty registry even after the growth attempt (doubling zero capacity)
and dereferences `begin()` of an empty set (modelled as `none`). -/
theorem C3_counterexample :
    ¬(sparse_vector.create Nat 64).clear.capacity = 64 ∧
    ¬((sparse_vector.create Nat 64).clear.push 7).map Prod.fst = some 0 := by
  decide

/-- Claim C3, amended: `clear()` destroys all live elements, releases
storage and resets the container to zero capacity with an empty occupancy
table and an empty registry; on an already-empty container it likewise
leaves `size() = 0` and `capacity() = 0`; a push immediately after
`clear()` yields no index (the registry stays empty even after the
doubling attempt `expand(2 * 0)`, and dereferencing `begin()` of the empty
registry is undefined behaviour, modelled as `none`). -/
theorem C3_clear_resets_to_zero (s : sparse_vector Nat) (v : Nat) :
    s.clear.size = 0 ∧ s.clear.capacity = 0 ∧ s.clear.bitsets = [] ∧
    s.clear.indices = [] ∧ s.clear.push v = none := by
  refine ⟨rfl, rfl, rfl, rfl, ?_⟩
  apply push_eq_none
  · rfl
  · show (sparse_vector.expand
      { data := [], bitsets := [], indices := [], size := 0, capacity := 0 } (2 * 0)).indices
      = ([] : List Nat)
    decide

/-- Claim C6: on any well-formed container with at least one free slot,
`push` (and `emplace`, which runs the identical scan through
`free_index`) returns the smallest free slot index overall: the returned
index is free, below `capacity()`, and every smaller index is live; it is
obtained from the lowest-numbered registered chunk and the lowest free bit
inside it. -/
theorem C6_push_returns_least_free (s : sparse_vector Nat) (v : Nat) (hWF : WF s)
    (hfree : ∃ n, n < s.capacity ∧ testSlot s.bitsets n = false) :
    ∃ i s', s.push v = some (i, s') ∧ s.emplaceNew v = some (i, s') ∧
      i < s.capacity ∧ testSlot s.bitsets i = false ∧
      ∀ j, j < i → testSlot s.bitsets j = true := by
  obtain ⟨n, hn, hnfree⟩ := hfree
  have hcap : 0 < s.capacity := by omega
  have h2 := hWF.2.1
  have hne : s.indices ≠ [] := by
    have hw : getWord s.bitsets (n / 64) ≠ FULL := by
      intro hfull
      rw [testSlot_mk, hfull, testBit_FULL _ (by omega)] at hnfree
      exact absurd hnfree (by simp)
    have h1 := hWF.1
    have hmem : n / 64 ∈ s.indices := by
      rw [hWF.2.2.2.1, mem_reg]
      exact ⟨by rw [h2]; omega, hw⟩
    exact List.ne_nil_of_mem hmem
  obtain ⟨i, s', hp, _, _, _, hfree', _, _, _, hlast⟩ := push_spec s v hWF hcap
  obtain ⟨hlt, hleast⟩ := hlast hne
  exact ⟨i, s', hp, by rw [emplaceNew_eq_push, hp], hlt, hfree', hleast⟩

/-- Claim C6, witness: in a one-chunk container with slots 0..5 filled and
then slots 5 and 2 erased, the next two pushes return index 2 and then
index 5, in that order (the first push constructs in slot 2, giving
`scenC6b`). -/
theorem C6_witness :
    WF scenC6 ∧ (scenC6.push 99).map Prod.fst = some 2 ∧
    scenC6.push 99 = some (2, scenC6b) ∧
    (scenC6b.push 98).map Prod.fst = some 5 := by
  have hfirst : (scenC6.push 99).map Prod.fst = some 2 := by
    obtain ⟨i, s', hp, _, hlt, hfree, hleast⟩ :=
      C6_push_returns_least_free scenC6 99 (by decide) ⟨2, by decide, by decide⟩
    have hi : i = 2 := by
      rcases Nat.lt_trichotomy i 2 with h | h | h
      · interval_cases i
        · rw [show testSlot scenC6.bitsets 0 = true by decide] at hfree
          cases hfree
        · rw [show testSlot scenC6.bitsets 1 = true by decide] at hfree
          cases hfree
      · exact h
      · have h5 := hleast 2 h
        rw [show testSlot scenC6.bitsets 2 = false by decide] at h5
        cases h5
    rw [hi] at hp
    rw [hp]
    rfl
  have hsecond : (scenC6b.push 98).map Prod.fst = some 5 := by
    obtain ⟨i, s', hp, _, hlt, hfree, hleast⟩ :=
      C6_push_returns_least_free scenC6b 98 (by decide) ⟨5, by decide, by decide⟩
    have hi : i = 5 := by
      rcases Nat.lt_trichotomy i 5 with h | h | h
      · interval_cases i
        · rw [show testSlot scenC6b.bitsets 0 = true by decide] at hfree
          cases hfree
        · rw [show testSlot scenC6b.bitsets 1 = true by decide] at hfree
          cases hfree
        · rw [show testSlot scenC6b.bitsets 2 = true by decide] at hfree
          cases hfree
        · rw [show testSlot scenC6b.bitsets 3 = true by decide] at hfree
          cases hfree
        · rw [show testSlot scenC6b.bitsets 4 = true by decide] at hfree
          cases hfree
      · exact h
      · have h5 := hleast 5 h
        rw [show testSlot scenC6b.bitsets 5 = false by decide] at h5
        cases h5
    rw [hi] at hp
    rw [hp]
    rfl
  exact ⟨by decide, hfirst, by decide, hsecond⟩

end Byte

namespace Byte

open sparse_vector

/-- Claim C1 (refuted, code bug): iteration is supposed to yield exactly the
live slot indices in ascending order with count `size()`, including live
elements at chunk-initial indices.  Failing input: after 65 pushes and
erasing slots 0..63, exactly slot 64 — the first slot of chunk 1 — is live
(`size() = 1`, occupancy bit set), yet iteration from `begin()` yields no
index at all: `operator++` masks with `(1 << (63 - _index % 64)) - 1`,
which always discards bit 63 (slot 0) of every chunk after the first. -/
theorem C1_iterator_misses_chunk_start :
    (runOps (sparse_vector.create Nat 64) progC1).map
      (fun s => (s.size, s.capacity, testSlot s.bitsets 64, iterYields s.bitsets))
      = some (1, 128, true, []) := by
  decide

/-- Claim C2 (refuted, code bug): the free-chunk registry is supposed to
contain exactly the chunks whose bitmap is not all-ones.  Failing input:
65 pushes, `erase(64)`, then `shrink_to_fit()`: the shrink re-inserts every
kept chunk index into the registry unconditionally, so afterwards the
registry is `{0}` although chunk 0's bitmap is all-ones (`FULL`). -/
theorem C2_registry_keeps_full_chunk :
    (runOps (sparse_vector.create Nat 64) progC2).map
      (fun s => (s.capacity, s.indices, getWord s.bitsets 0))
      = some (64, [0], FULL) := by
  decide

/-- Claim C4 (refuted, code bug): `shrink_to_fit` on a three-chunk
container whose only live element sits at slot 64 (the first slot of chunk
1) correctly drops the trailing free chunk (capacity 192 → 128) and keeps
the occupancy bit of slot 64, but the relocation loop walks the
hole-skipping iterator, which never visits chunk-initial slots, so the
value at slot 64 (7 before the shrink) is absent from the new buffer. -/
theorem C4_shrink_loses_chunk_start_element :
    preC4.data.getD 64 none = some 7 ∧ preC4.size = 1 ∧ preC4.capacity = 192 ∧
    sC4.capacity = 128 ∧ sC4.size = 1 ∧
    testSlot sC4.bitsets 64 = true ∧ sC4.data.getD 64 none = none := by
  decide

/-- Claim C5 (refuted, code bug): `copy()` duplicates the occupancy words,
registry and size verbatim, but writes the fresh buffer only at the
indices the iterator visits; a live element at slot 64 (value 7) is
therefore missing from the copy's buffer even though the copy's bitmap
and size say it is present. -/
theorem C5_copy_loses_chunk_start_element :
    sC5.copy.bitsets = sC5.bitsets ∧ sC5.copy.indices = sC5.indices ∧
    sC5.copy.size = sC5.size ∧ sC5.copy.capacity = sC5.capacity ∧
    sC5.data.getD 64 none = some 7 ∧ sC5.copy.data.getD 64 none = none := by
  decide

/-- Claim C7: along any push/erase trace from a fresh one-chunk container
in which every erase targets a live in-range index, an index `i` returned
by a push is never returned by a later push as long as no erase of `i`
intervenes (instantiate `ops2` with any prefix of the rest of the trace to
place the later push anywhere); and erasing a live in-range index always
shrinks `size()` by exactly one. -/
theorem C7_round_trip (ops1 ops2 : List POp) (v u : Nat) (i : Nat)
    (s s1 s2 : sparse_vector Nat)
    (h1 : runPE (sparse_vector.create Nat 64) ops1 = some s)
    (h2 : s.push v = some (i, s1))
    (h3 : runPE s1 ops2 = some s2)
    (h4 : POp.erase i ∉ ops2) :
    (s2.push u).map Prod.fst ≠ some i ∧
    ∀ j, j < s2.capacity → testSlot s2.bitsets j = true →
      (s2.erase j).size + 1 = s2.size := by
  obtain ⟨hWFs, hcaps, _⟩ := runPE_spec ops1 _ s h1 (by decide) (by decide)
  obtain ⟨i', s1', hp, hWF1, hcap1, _, hfree, htest1, hframe1, _, _⟩ :=
    push_spec s v hWFs hcaps
  rw [h2] at hp
  obtain ⟨rfl, rfl⟩ : i = i' ∧ s1 = s1' := by
    have := Option.some.inj hp
    exact ⟨congrArg Prod.fst this, congrArg Prod.snd this⟩
  obtain ⟨hWF2, hcap2, hlive2⟩ := runPE_spec ops2 s1 s2 h3 hWF1 hcap1
  have hi_live : testSlot s2.bitsets i = true := hlive2 i h4 htest1
  constructor
  · obtain ⟨j, s3, hp3, _, _, _, hfree3, _, _, _, _⟩ := push_spec s2 u hWF2 hcap2
    rw [hp3]
    simp only [Option.map_some', ne_eq, Option.some.injEq]
    intro hji
    rw [hji, hi_live] at hfree3
    cases hfree3
  · intro j hj hjt
    exact (erase_spec s2 j hWF2 hj hjt).2.2.1

/-- Claim C7, witness: push value 1 into a fresh container (returns slot
0, giving `s1cC7`); a push right after cannot return 0 again, and erasing
the live slot 0 shrinks the size by exactly one (from 1 to 0). -/
theorem C7_witness :
    (s1cC7.push 2).map Prod.fst ≠ some 0 ∧ (s1cC7.erase 0).size + 1 = s1cC7.size := by
  have h := C7_round_trip [] [] 1 2 0 (sparse_vector.create Nat 64) s1cC7 s1cC7
    rfl (by decide) rfl (by simp)
  exact ⟨h.1, h.2 0 (by decide) (by decide)⟩

/-- Claim C8: starting from a one-chunk container, pushing
`CHUNK_SIZE + 1 = 65` values causes exactly one growth event — the
capacity is still 64 after the first 64 pushes and exactly doubles to 128
on the 65th — and the 65 returned handles are `0..64` (pairwise distinct),
each still the live index of its own element afterwards. -/
theorem C8_growth_trigger :
    (outC8.map fun p => (p.1, p.2.capacity, p.2.size,
        (List.range 65).all fun k =>
          (p.2.data.getD k none == some (100 + k)) && testSlot p.2.bitsets k))
      = some (List.range 65, 128, 65, true) ∧
    (pushSeq (sparse_vector.create Nat 64) ((List.range 64).map fun k => 100 + k)).map
      (fun p => p.2.capacity) = some 64 ∧
    (List.range 65).Nodup := by
  refine ⟨by decide, by decide, List.nodup_range 65⟩

/-- Claim C9: erasing a live index `i` touches nothing but slot `i`: every
other slot keeps its occupancy bit and its buffer entry, the capacity is
unchanged, every chunk other than `i`'s keeps its occupancy word and its
registry membership, slot `i` itself becomes free, and the size drops by
exactly one. -/
theorem C9_erase_frame (s : sparse_vector Nat) (hWF : WF s) (i : Nat)
    (hi : i < s.capacity) (hlive : testSlot s.bitsets i = true)
    (j : Nat) (hj : j ≠ i) :
    testSlot (s.erase i).bitsets j = testSlot s.bitsets j ∧
    (s.erase i).data.getD j none = s.data.getD j none ∧
    (s.erase i).capacity = s.capacity ∧
    (s.erase i).size + 1 = s.size ∧
    testSlot (s.erase i).bitsets i = false ∧
    (∀ c, c ≠ i / 64 → getWord (s.erase i).bitsets c = getWord s.bitsets c) ∧
    (∀ c, c ≠ i / 64 → (c ∈ (s.erase i).indices ↔ c ∈ s.indices)) := by
  obtain ⟨_, hcap', hsize', htest', hframe', hword', hind'⟩ := erase_spec s i hWF hi hlive
  exact ⟨hframe' j hj, getD_set_ne_poly s.data i none none j hj, hcap', hsize',
    htest', hword', hind'⟩

/-- Claim C9, witness: with values 10, 11, 12 (A, B, C) at slots 0, 1, 2,
erasing slot 1 (B) leaves A and C live at their original indices with
their original buffer entries, and the size drops from 3 to 2. -/
theorem C9_witness :
    testSlot (scenC9.erase 1).bitsets 0 = testSlot scenC9.bitsets 0 ∧
    (scenC9.erase 1).data.getD 0 none = scenC9.data.getD 0 none ∧
    (scenC9.erase 1).data.getD 2 none = scenC9.data.getD 2 none ∧
    (scenC9.erase 1).size + 1 = scenC9.size := by
  have hA := C9_erase_frame scenC9 (by decide) 1 (by decide) (by decide) 0 (by decide)
  have hC := C9_erase_frame scenC9 (by decide) 1 (by decide) (by decide) 2 (by decide)
  exact ⟨hA.1, hA.2.1, hC.2.1, hA.2.2.2.1⟩

/-- Claim C10: constructing `begin()` on a zero-capacity container (a
state reachable via `clear()`) performs the checked lookup
`bitsets.at(0)` on an empty word vector and therefore raises
`std::out_of_range` (modelled as `none`) instead of producing the end
sentinel; while on any container with positive capacity and no live
elements, `begin() = end()` holds. -/
theorem C10_begin_empty (s : sparse_vector Nat) (hWF : WF s) :
    (s.capacity = 0 → s.beginIdx = none ∧ s.beginIdx ≠ some (endIdx s.bitsets)) ∧
    (0 < s.capacity → (∀ k, k < s.capacity → testSlot s.bitsets k = false) →
      s.beginIdx = some (endIdx s.bitsets)) := by
  have h1 := hWF.1
  have h2 := hWF.2.1
  constructor
  · intro hcap0
    have hlen : s.bitsets.length = 0 := by omega
    have hbs : s.bitsets = [] := List.length_eq_zero.mp hlen
    have hnone : s.beginIdx = none := by
      show mkIterIdx s.bitsets 0 = none
      rw [hbs]
      rfl
    exact ⟨hnone, by rw [hnone]; exact fun h => Option.noConfusion h⟩
  · intro hcap hdead
    have hlen : 0 < s.bitsets.length := by omega
    have hz := words_zero_of_dead s hWF hdead
    show mkIterIdx s.bitsets 0 = some (endIdx s.bitsets)
    rw [mkIterIdx, if_pos (by simpa using hlen)]
    have htest0 : testSlot s.bitsets 0 = false := hdead 0 (by omega)
    rw [htest0]
    simp only [Bool.false_eq_true, if_false, Option.some.injEq]
    show advanceFrom s.bitsets 0 0 = endIdx s.bitsets
    unfold advanceFrom endIdx
    exact advanceLoop_zeros s.bitsets hz (s.bitsets.length + 1) 0 (by omega) (by omega)

/-- Claim C10, witness: `begin()` on the zero-capacity container produced
by `clear()` raises (is `none`, in particular not the end sentinel), and
`begin() = end()` on a fresh, still-empty one-chunk container. -/
theorem C10_witness :
    (sparse_vector.create Nat 64).clear.beginIdx = none ∧
    (sparse_vector.create Nat 64).beginIdx
      = some (endIdx (sparse_vector.create Nat 64).bitsets) := by
  refine ⟨((C10_begin_empty (sparse_vector.create Nat 64).clear (by decide)).1 (by decide)).1,
    (C10_begin_empty (sparse_vector.create Nat 64) (by decide)).2 (by decide) (by decide)⟩

end Byte
